import Mathlib

/-!
Verification of the change classification / application engine of the
rewrite-maven-plugin Go port (`rewriter.go`, `runner.go`).

Paths and patterns are modelled as `List Char`; file contents as `String`.
The filesystem is a finite map from paths to contents plus a set of
existing directories, both as association lists.
-/

set_option maxRecDepth 8192

namespace RewriteGo

abbrev Path := List Char
abbrev Err := String

/-- Converts a string literal into the character-list path representation. -/
def str (s : String) : Path := s.toList

/-! ### Go `path/filepath.Match`

Embedding of the Go standard library glob matcher used by
`Rewriter.matchesPatterns` (rewriter.go line 282).  `*` matches any run of
non-separator characters, `?` a single non-separator character, `[...]`
a character class, `\` escapes.  A malformed pattern makes Go's `Match`
return `(false, ErrBadPattern)`; the repository ignores the error and uses
only the boolean, so malformed patterns are embedded as plain `false`. -/

/-- Character-range membership test for a glob character class. -/
def inRanges (c : Char) (rs : List (Char × Char)) : Bool :=
  rs.any (fun r => r.1 ≤ c && c ≤ r.2)

/-- Reads one (possibly escaped) class endpoint, as `getEsc` in Go
`path/filepath/match.go`; `none` models `ErrBadPattern`. -/
def getEsc (chunk : List Char) : Option (Char × List Char) :=
  match chunk with
  | [] => none
  | c :: rest =>
    if c = '-' || c = ']' then none
    else if c = '\\' then
      match rest with
      | [] => none
      | d :: rest' => if rest' = [] then none else some (d, rest')
    else if rest = [] then none else some (c, rest)

/-- Parses the body of a character class after the opening bracket and
optional negation marker, returning the ranges and the rest of the
pattern after the closing bracket.  Fuel-driven; each loop iteration of
the Go original consumes at least one character, so fuel `length + 1`
is enough. -/
def parseRanges : Nat → List Char → Nat → Option (List (Char × Char) × List Char)
  | 0, _, _ => none
  | fuel + 1, chunk, nrange =>
    match chunk with
    | [] => none
    | c :: rest =>
      if c = ']' && nrange > 0 then some ([], rest)
      else
        match getEsc (c :: rest) with
        | none => none
        | some (lo, chunk1) =>
          match chunk1 with
          | '-' :: chunk2 =>
            match getEsc chunk2 with
            | none => none
            | some (hi, chunk3) =>
              (parseRanges fuel chunk3 (nrange + 1)).map
                (fun pr => ((lo, hi) :: pr.1, pr.2))
          | _ =>
            (parseRanges fuel chunk1 (nrange + 1)).map
              (fun pr => ((lo, lo) :: pr.1, pr.2))

/-- Fuel-driven core of the Go `filepath.Match` embedding.  Every recursive
call shrinks `pattern.length + name.length`, so fuel
`pattern.length + name.length + 1` never runs out. -/
def goMatchF : Nat → List Char → List Char → Bool
  | 0, _, _ => false
  | fuel + 1, p, n =>
    match p, n with
    | [], [] => true
    | [], _ :: _ => false
    | '*' :: ps, n =>
      goMatchF fuel ps n ||
        (match n with
         | [] => false
         | c :: rest => c != '/' && goMatchF fuel ('*' :: ps) rest)
    | '?' :: ps, n =>
      (match n with
       | [] => false
       | c :: rest => c != '/' && goMatchF fuel ps rest)
    | '\\' :: ps, n =>
      (match ps, n with
       | d :: ps', c :: rest => d == c && goMatchF fuel ps' rest
       | _, _ => false)
    | '[' :: ps, n =>
      (match n with
       | [] => false
       | c :: rest =>
         let neg : Bool × List Char := match ps with
           | '^' :: t => (true, t)
           | _ => (false, ps)
         match parseRanges (neg.2.length + 1) neg.2 0 with
         | none => false
         | some (ranges, ps') => (inRanges c ranges != neg.1) && goMatchF fuel ps' rest)
    | pc :: ps, n =>
      (match n with
       | [] => false
       | c :: rest => pc == c && goMatchF fuel ps rest)

/-- Go `filepath.Match pattern name` as a boolean: `*` and `?` do not cross
the separator `/`, character classes and escapes match single characters,
and the whole name must be consumed. -/
def goMatch (p n : List Char) : Bool := goMatchF (p.length + n.length + 1) p n

/-! ### The repository's `matchesPatterns` (rewriter.go lines 278-299) -/

/-- Tests whether the pattern contains the substring `**`, as
`strings.Contains(pattern, "**")`. -/
def containsSS : List Char → Bool
  | '*' :: '*' :: _ => true
  | _ :: rest => containsSS rest
  | [] => false

/-- Splits on non-overlapping leftmost occurrences of `**`, as
`strings.Split(pattern, "**")`; `acc` holds the current part reversed. -/
def splitAux (acc : List Char) : List Char → List (List Char)
  | '*' :: '*' :: rest => acc.reverse :: splitAux [] rest
  | c :: rest => splitAux (c :: acc) rest
  | [] => [acc.reverse]

/-- Splits a pattern on `**`, as `strings.Split(pattern, "**")`. -/
def splitOnSS (pattern : List Char) : List (List Char) := splitAux [] pattern

/-- One iteration of the `matchesPatterns` loop body (rewriter.go lines
279-296): first the plain glob match, then, when the pattern contains `**`
and splits into exactly two parts, the prefix/suffix test. -/
def patternMatches (pattern path : Path) : Bool :=
  goMatch pattern path ||
    (containsSS pattern &&
      (match splitOnSS pattern with
       | [pre, suf] => pre.isPrefixOf path && suf.isSuffixOf path
       | _ => false))

/-- `Rewriter.matchesPatterns`: true iff any pattern matches. -/
def matchesPatterns (path : Path) (patterns : List Path) : Bool :=
  patterns.any (fun pattern => patternMatches pattern path)

/-! ### `isSourceFile` (rewriter.go lines 301-321) -/

/-- Helper for `filepathExt`: scans the reversed path, accumulating the
characters after the final dot of the final path element. -/
def extAux (acc : List Char) : List Char → Path
  | [] => []
  | c :: rest =>
    if c = '/' then []
    else if c = '.' then '.' :: acc
    else extAux (c :: acc) rest

/-- Go `filepath.Ext`: the suffix beginning at the final dot in the final
element of the path; empty when there is no dot. -/
def filepathExt (p : Path) : Path := extAux [] p.reverse

/-- The fixed recognized-source-extension allow-list of `isSourceFile`. -/
def sourceExtensions : List Path :=
  [str ".java", str ".kt", str ".groovy", str ".scala",
   str ".js", str ".ts", str ".jsx", str ".tsx",
   str ".go", str ".rs", str ".py", str ".rb",
   str ".c", str ".cpp", str ".h", str ".hpp",
   str ".cs", str ".vb", str ".php",
   str ".xml", str ".json", str ".yaml", str ".yml",
   str ".properties", str ".toml", str ".hcl"]

/-- `Rewriter.isSourceFile`: lowercases the extension, then compares it
against the allow-list. -/
def isSourceFile (p : Path) : Bool :=
  sourceExtensions.any (fun e => (filepathExt p).map Char.toLower == e)

/-! ### Path helpers used by `runner.go` -/

/-- Go `filepath.Join root rel` for already-clean paths: plain concatenation
with a separator, with an empty root standing for the current directory. -/
def joinP (root rel : Path) : Path :=
  if root.isEmpty then rel else root ++ '/' :: rel

/-- Go `filepath.Dir` for clean relative paths: everything before the last
separator, or `"."` when there is none. -/
def parentDir (p : Path) : Path :=
  match (p.reverse.dropWhile (fun c => c ≠ '/')) with
  | [] => ['.']
  | _ :: rest => rest.reverse

/-- `strings.Count(dir, string(filepath.Separator))`: the path-depth measure
used to order pruning candidates. -/
def sepCount (p : Path) : Nat := p.count '/'

/-- Fuel-driven chain of a directory and its ancestors; `parentDir` strictly
shortens a path containing a separator, so fuel `d.length` is enough. -/
def dirChainF : Nat → Path → List Path
  | 0, d => [d]
  | fuel + 1, d => if '/' ∈ d then d :: dirChainF fuel (parentDir d) else [d]

/-- The chain of a directory and its ancestors, as created by
`os.MkdirAll`. -/
def dirChain (d : Path) : List Path := dirChainF d.length d

/-! ### The filesystem model -/

/-- A filesystem state: a finite map from file paths to contents plus the
set of existing directories. -/
structure FS where
  files : List (Path × String)
  dirs : List Path
deriving DecidableEq

/-- The content stored at a path, when a file exists there. -/
def fileContent (fs : FS) (p : Path) : Option String :=
  (fs.files.find? (fun kv => kv.1 == p)).map (fun kv => kv.2)

/-- Whether a file exists at the path. -/
def hasFile (fs : FS) (p : Path) : Bool :=
  fs.files.any (fun kv => kv.1 == p)

/-- Removes any file entry at the path. -/
def removeFileEntry (fs : FS) (p : Path) : FS :=
  { fs with files := fs.files.filter (fun kv => !(kv.1 == p)) }

/-- Creates or overwrites the file at the path. -/
def setFile (fs : FS) (p : Path) (c : String) : FS :=
  { fs with files := (p, c) :: (fs.files.filter (fun kv => !(kv.1 == p))) }

/-- Whether a directory exists at the path. -/
def hasDir (fs : FS) (d : Path) : Bool :=
  fs.dirs.any (fun x => x == d)

/-- Removes the directory entry at the path. -/
def removeDirEntry (fs : FS) (d : Path) : FS :=
  { fs with dirs := fs.dirs.filter (fun x => !(x == d)) }

/-- Go `os.MkdirAll`: creates the directory and all missing ancestors. -/
def mkdirAll (fs : FS) (d : Path) : FS :=
  { fs with dirs := fs.dirs ++ ((dirChain d).filter (fun x => !(fs.dirs.any (fun y => y == x)))) }

/-! ### Data model (rewriter.go lines 57-83) -/

/-- `SourceFile`: a snapshot of a file being processed. -/
structure SourceFile where
  path : Path
  content : String
  charset : String
  modified : Bool
deriving DecidableEq

/-- `Result`: a before/after snapshot pair (recipe identifiers and the
time-saved estimate play no role in the verified properties). -/
structure Result where
  before : Option SourceFile
  after : Option SourceFile
deriving DecidableEq

/-- `ResultsContainer`: the four buckets, plus the retained first
processing failure. -/
structure ResultsContainer where
  generated : List Result
  deleted : List Result
  moved : List Result
  refactoredInPlace : List Result
  firstException : Option Err
deriving DecidableEq

/-- The four change buckets. -/
inductive Bucket where
  | generated
  | deleted
  | moved
  | refactoredInPlace
deriving DecidableEq

/-- The bucketing rule of `ProcessFiles` (rewriter.go lines 344-352):
no before-snapshot means Generated, no after-snapshot means Deleted,
differing paths mean Moved, differing contents mean RefactoredInPlace,
and a fully identical pair is dropped. -/
def categorize (res : Result) : Option Bucket :=
  match res.before with
  | none => some .generated
  | some b =>
    match res.after with
    | none => some .deleted
    | some a =>
      if b.path ≠ a.path then some .moved
      else if b.content ≠ a.content then some .refactoredInPlace
      else none

/-! ### `ProcessFiles` (rewriter.go lines 324-357)

The per-file recipe outcomes are supplied as a list of
`Except Err (Option Result)` values: `.error e` models a failing
`processFile` call, `.ok none` a no-change file, `.ok (some r)` a produced
change. -/

/-- The empty results container `ProcessFiles` starts from. -/
def emptyRC : ResultsContainer := ⟨[], [], [], [], none⟩

/-- Appends a non-nil result to the bucket chosen by `categorize`. -/
def addResult (rc : ResultsContainer) (r : Result) : ResultsContainer :=
  match categorize r with
  | some .generated => { rc with generated := rc.generated ++ [r] }
  | some .deleted => { rc with deleted := rc.deleted ++ [r] }
  | some .moved => { rc with moved := rc.moved ++ [r] }
  | some .refactoredInPlace => { rc with refactoredInPlace := rc.refactoredInPlace ++ [r] }
  | none => rc

/-- One iteration of the `ProcessFiles` loop: a failure is retained only
when it is the first one, and processing continues either way. -/
def stepPF (rc : ResultsContainer) (o : Except Err (Option Result)) : ResultsContainer :=
  match o with
  | .error e => if rc.firstException = none then { rc with firstException := some e } else rc
  | .ok none => rc
  | .ok (some r) => addResult rc r

/-- `Rewriter.ProcessFiles` over a list of per-file outcomes. -/
def processFiles (outs : List (Except Err (Option Result))) : ResultsContainer :=
  outs.foldl stepPF emptyRC

/-- The post-processing check of `Runner.Execute` (runner.go lines 69-72):
a retained first exception makes the whole run report failure. -/
def runOutcome (rc : ResultsContainer) : Except Err ResultsContainer :=
  match rc.firstException with
  | some e => .error e
  | none => .ok rc

/-! ### The change applicator (runner.go lines 161-253)

Disk writes and directory creation are modelled as always succeeding.
`os.Remove` failures other than not-found are injected through a `faults`
oracle (the set of paths whose removal raises a non-not-found error), and
`os.Rename` availability through a `renameOk` oracle, so that the fallback
and error paths are all reachable in the model. -/

/-- Outcome classification of a single `os.Remove` call. -/
inductive RmErr where
  | notExist
  | fault
deriving DecidableEq

/-- Go `os.Remove` on a file path, with injected non-not-found faults. -/
def osRemoveFile (fs : FS) (faults : List Path) (p : Path) : FS × Option RmErr :=
  if p ∈ faults then (fs, some .fault)
  else if hasFile fs p then (removeFileEntry fs p, none)
  else (fs, some .notExist)

/-- Go `os.Rename`: succeeds only when the environment permits an atomic
rename and the source file exists; on success the stored content moves
with the file. -/
def osRename (fs : FS) (renameOk : Bool) (old new : Path) : Option FS :=
  if renameOk then
    match fileContent fs old with
    | some c => some (setFile (removeFileEntry fs old) new c)
    | none => none
  else none

/-- `Runner.writeFile` (runner.go lines 236-253): create the parent
directories, then write the content. -/
def writeFile (root : Path) (fs : FS) (sf : SourceFile) : FS :=
  let p := joinP root sf.path
  setFile (mkdirAll fs (parentDir p)) p sf.content

/-- The Generated loop of `applyChanges` (runner.go lines 167-174). -/
def applyGenerated (root : Path) (fs : FS) : List Result → FS
  | [] => fs
  | r :: rest =>
    match r.after with
    | some a => applyGenerated root (writeFile root fs a) rest
    | none => applyGenerated root fs rest

/-- The Deleted loop of `applyChanges` (runner.go lines 177-185): a
not-found condition is tolerated silently, any other failure aborts. -/
def applyDeleted (root : Path) (faults : List Path) (fs : FS) : List Result → Except Err FS
  | [] => .ok fs
  | r :: rest =>
    match r.before with
    | none => applyDeleted root faults fs rest
    | some b =>
      match osRemoveFile fs faults (joinP root b.path) with
      | (fs', none) => applyDeleted root faults fs' rest
      | (fs', some .notExist) => applyDeleted root faults fs' rest
      | (_, some .fault) => .error "failed to delete file"

/-- The Moved loop of `applyChanges` (runner.go lines 188-214): create the
target directory, attempt an atomic rename, and on failure fall back to
writing the after-content and deleting the old path (not-found on the
delete tolerated). -/
def applyMoved (root : Path) (renameOk : Bool) (faults : List Path) (fs : FS) :
    List Result → Except Err FS
  | [] => .ok fs
  | r :: rest =>
    match r.before, r.after with
    | some b, some a =>
      let oldP := joinP root b.path
      let newP := joinP root a.path
      let fs1 := mkdirAll fs (parentDir newP)
      match osRename fs1 renameOk oldP newP with
      | some fs2 => applyMoved root renameOk faults fs2 rest
      | none =>
        let fs2 := writeFile root fs1 a
        match osRemoveFile fs2 faults oldP with
        | (fs3, none) => applyMoved root renameOk faults fs3 rest
        | (fs3, some .notExist) => applyMoved root renameOk faults fs3 rest
        | (_, some .fault) => .error "failed to remove old file"
    | _, _ => applyMoved root renameOk faults fs rest

/-- The RefactoredInPlace loop of `applyChanges` (runner.go lines 217-224). -/
def applyRefactored (root : Path) (fs : FS) : List Result → FS
  | [] => fs
  | r :: rest =>
    match r.after with
    | some a => applyRefactored root (writeFile root fs a) rest
    | none => applyRefactored root fs rest

/-! ### The empty-directory pruner (runner.go lines 256-325) -/

/-- The before-paths present in a result bucket. -/
def beforePaths (rs : List Result) : List Path :=
  rs.filterMap (fun r => r.before.map (fun b => b.path))

/-- Candidate directories (runner.go lines 258-272): the parent directories
of the before-paths of the Deleted and then the Moved bucket. -/
def candidateDirs (root : Path) (results : ResultsContainer) : List Path :=
  (beforePaths results.deleted).map (fun p => parentDir (joinP root p)) ++
    (beforePaths results.moved).map (fun p => parentDir (joinP root p))

/-- Fuel-driven duplicate removal; each step consumes one fuel and one list
element, so fuel `l.length` is enough. -/
def dedupF : Nat → List Path → List Path
  | _, [] => []
  | 0, _ :: _ => []
  | fuel + 1, x :: xs => x :: dedupF fuel (xs.filter (fun y => y ≠ x))

/-- Removes duplicate candidates, keeping the first occurrence (the Go
original collects them into a map; which duplicate survives is
irrelevant). -/
def dedupKeepFirst (l : List Path) : List Path := dedupF l.length l

/-- Extracts a maximal-depth element, exchanging it towards the front the
way the selection loop of runner.go lines 286-294 does. -/
def pickMax (x : Path) : List Path → Path × List Path
  | [] => (x, [])
  | y :: ys =>
    if sepCount x < sepCount y then
      let r := pickMax y ys
      (r.1, x :: r.2)
    else
      let r := pickMax x ys
      (r.1, y :: r.2)

/-- The extracted remainder keeps its length. -/
theorem pickMax_length (x : Path) (l : List Path) : (pickMax x l).2.length = l.length := by
  induction l generalizing x with
  | nil => simp [pickMax]
  | cons y ys ih =>
    simp only [pickMax]
    by_cases h : sepCount x < sepCount y <;> simp [h, ih]

/-- Fuel-driven selection sort; `pickMax` keeps the remainder length, so
fuel `l.length` is enough. -/
def sortF : Nat → List Path → List Path
  | _, [] => []
  | 0, _ :: _ => []
  | fuel + 1, x :: xs =>
    let r := pickMax x xs
    r.1 :: sortF fuel r.2

/-- Sorts candidate directories by separator count, deepest first
(runner.go lines 285-294). -/
def sortByDepthDesc (l : List Path) : List Path := sortF l.length l

/-- `Runner.isEmptyDir` (runner.go lines 319-325): a readable directory
with zero entries; a read failure (missing directory) counts as
non-empty. -/
def isEmptyDir (fs : FS) (d : Path) : Bool :=
  hasDir fs d &&
    (fs.files.filter (fun kv => parentDir kv.1 == d)).length == 0 &&
    (fs.dirs.filter (fun x => !(x == d) && parentDir x == d)).length == 0

/-- The removal loop of `cleanupEmptyDirectories` (runner.go lines
297-305): remove a candidate exactly when it is currently empty; a failed
removal (injected through `faults`) is simply not recorded. -/
def prunePass (faults : List Path) : FS → List Path → FS × List Path
  | fs, [] => (fs, [])
  | fs, d :: ds =>
    if isEmptyDir fs d then
      if d ∈ faults then prunePass faults fs ds
      else
        let r := prunePass faults (removeDirEntry fs d) ds
        (r.1, d :: r.2)
    else prunePass faults fs ds

/-- `Runner.cleanupEmptyDirectories` (runner.go lines 256-316): collect,
deduplicate and depth-sort the candidates, prune, and always report
success (the trailing `Option Err` component models the returned error
value, which is always nil). -/
def cleanupEmptyDirectories (root : Path) (fs : FS) (results : ResultsContainer)
    (faults : List Path) : FS × List Path × Option Err :=
  let sorted := sortByDepthDesc (dedupKeepFirst (candidateDirs root results))
  let r := prunePass faults fs sorted
  (r.1, r.2, none)

/-- `Runner.applyChanges` (runner.go lines 161-233): Generated, Deleted,
Moved, RefactoredInPlace, then the pruning pass whose error is only
logged. -/
def applyChanges (root : Path) (renameOk : Bool) (rmFaults rmdirFaults : List Path)
    (fs : FS) (results : ResultsContainer) : Except Err FS :=
  let fs1 := applyGenerated root fs results.generated
  match applyDeleted root rmFaults fs1 results.deleted with
  | .error e => .error e
  | .ok fs2 =>
    match applyMoved root renameOk rmFaults fs2 results.moved with
    | .error e => .error e
    | .ok fs3 =>
      let fs4 := applyRefactored root fs3 results.refactoredInPlace
      let r := cleanupEmptyDirectories root fs4 results rmdirFaults
      .ok r.1

/-! ### File discovery (rewriter.go lines 236-275)

The `filepath.Walk` traversal is supplied as a list of visit events; a
visit may carry the walk error passed to the callback, which the callback
returns, aborting the walk.  The root-relative path of each file stands
for both the walked path and the `filepath.Rel` result. -/

/-- One visit event of the walk. -/
structure WalkEntry where
  errVisit : Option Err
  isDir : Bool
  size : Nat
  relPath : Path
deriving DecidableEq

/-- The configuration slice consumed by discovery. -/
structure DiscoveryConfig where
  sizeThresholdMb : Nat
  exclusions : List Path
  plainTextMasks : List Path
deriving DecidableEq

/-- `Rewriter.FindSourceFiles`: walks the visit events, filtering by
directory-ness, size threshold (the float comparison
`float64(size)/2^20 > float64(mb)` is exact for sizes below 2^53, hence
the integer form), exclusions, and the plain-text-mask / source-extension
test; a visit error aborts the walk and is returned alongside the files
collected so far. -/
def findSourceFiles (cfg : DiscoveryConfig) : List WalkEntry → List Path × Option Err
  | [] => ([], none)
  | e :: rest =>
    match e.errVisit with
    | some er => ([], some er)
    | none =>
      let keep :=
        if e.isDir then false
        else if e.size > cfg.sizeThresholdMb * 1048576 then false
        else if matchesPatterns e.relPath cfg.exclusions then false
        else matchesPatterns e.relPath cfg.plainTextMasks || isSourceFile e.relPath
      let r := findSourceFiles cfg rest
      (if keep then e.relPath :: r.1 else r.1, r.2)

/-- The discovery step of `Runner.Execute` (runner.go lines 50-53): a walk
error is surfaced and the collected file list is discarded. -/
def discoverOutcome (cfg : DiscoveryConfig) (entries : List WalkEntry) :
    Except Err (List Path) :=
  match findSourceFiles cfg entries with
  | (_, some e) => .error e
  | (files, none) => .ok files

/-- Builds a snapshot with the fixed charset the repository always uses. -/
def mkSF (p c : String) : SourceFile := ⟨str p, c, "UTF-8", false⟩

/-! ### Lemmas about the filesystem map -/

theorem find?_filter_self (l : List (Path × String)) (p : Path) :
    (l.filter (fun kv => !(kv.1 == p))).find? (fun kv => kv.1 == p) = none := by
  induction l with
  | nil => rfl
  | cons kv rest ih =>
    by_cases h : kv.1 = p
    · rw [List.filter_cons_of_neg (by simp [h])]
      exact ih
    · rw [List.filter_cons_of_pos (by simp [h]), List.find?_cons_of_neg _ (by simp [h])]
      exact ih

theorem find?_filter_other (l : List (Path × String)) (p q : Path) (h : q ≠ p) :
    (l.filter (fun kv => !(kv.1 == p))).find? (fun kv => kv.1 == q) =
      l.find? (fun kv => kv.1 == q) := by
  induction l with
  | nil => rfl
  | cons kv rest ih =>
    by_cases hp : kv.1 = p
    · have hq : ¬ kv.1 = q := by rw [hp]; exact fun hh => h hh.symm
      rw [List.filter_cons_of_neg (by simp [hp]), List.find?_cons_of_neg _ (by simp [hq])]
      exact ih
    · by_cases hq : kv.1 = q
      · rw [List.filter_cons_of_pos (by simp [hp]), List.find?_cons_of_pos _ (by simp [hq]),
          List.find?_cons_of_pos _ (by simp [hq])]
      · rw [List.filter_cons_of_pos (by simp [hp]), List.find?_cons_of_neg _ (by simp [hq]),
          List.find?_cons_of_neg _ (by simp [hq])]
        exact ih

theorem fileContent_removeFileEntry_self (fs : FS) (p : Path) :
    fileContent (removeFileEntry fs p) p = none := by
  simp only [fileContent, removeFileEntry, find?_filter_self, Option.map_none']

theorem fileContent_removeFileEntry_other (fs : FS) (p q : Path) (h : q ≠ p) :
    fileContent (removeFileEntry fs p) q = fileContent fs q := by
  simp only [fileContent, removeFileEntry, find?_filter_other _ _ _ h]

theorem fileContent_setFile_self (fs : FS) (p : Path) (c : String) :
    fileContent (setFile fs p c) p = some c := by
  simp only [fileContent, setFile]
  rw [List.find?_cons_of_pos _ (by simp)]
  rfl

theorem fileContent_setFile_other (fs : FS) (p q : Path) (c : String) (h : q ≠ p) :
    fileContent (setFile fs p c) q = fileContent fs q := by
  have hne : ¬ (p, c).1 = q := fun hh => h hh.symm
  simp only [fileContent, setFile]
  rw [List.find?_cons_of_neg _ (by simp [hne]), find?_filter_other _ _ _ h]

theorem hasFile_false_iff (fs : FS) (p : Path) :
    hasFile fs p = false ↔ fileContent fs p = none := by
  simp [hasFile, fileContent, Option.map_eq_none', List.find?_eq_none, List.any_eq_false]

theorem hasFile_true_of_content (fs : FS) (p : Path) (c : String)
    (h : fileContent fs p = some c) : hasFile fs p = true := by
  rcases hb : hasFile fs p with _ | _
  · rw [(hasFile_false_iff fs p).mp hb] at h; cases h
  · rfl

theorem fileContent_mkdirAll (fs : FS) (d p : Path) :
    fileContent (mkdirAll fs d) p = fileContent fs p := rfl

theorem hasFile_mkdirAll (fs : FS) (d p : Path) :
    hasFile (mkdirAll fs d) p = hasFile fs p := rfl

theorem joinP_ne (root : Path) {x y : Path} (h : x ≠ y) :
    joinP root x ≠ joinP root y := by
  unfold joinP
  by_cases hr : root.isEmpty
  · simpa [hr] using h
  · simp only [hr, if_false]
    intro heq
    exact h (by simpa using List.append_cancel_left heq)

/-! ### Claim C1: applying a Moved change -/

/-- C1 (counterexample).  A Moved change whose content also differs, applied
with the atomic rename available: the apply succeeds, the before-path is
gone, but the after-path holds the old on-disk content `"old"`, not the
after-content `"NEW"` — the rename carries the on-disk bytes, so the claim
that the after-path always ends with the after-content fails. -/
theorem moved_rename_keeps_old_content :
    ((applyMoved [] true [] ⟨[(str "a/old.txt", "old")], []⟩
        [⟨some (mkSF "a/old.txt" "old"), some (mkSF "b/new.txt" "NEW")⟩]).toOption.map
      (fun fs' => (fileContent fs' (str "b/new.txt"), fileContent fs' (str "a/old.txt")))) =
      some (some "old", none) ∧ ("old" : String) ≠ "NEW" := by decide

/-- C1 (amended).  Applying a Moved change with both snapshots present and
distinct paths, with no fault injected on the fallback delete, succeeds and
leaves the before-path absent; when the atomic rename runs (permitted and
source present) the after-path receives the previous on-disk content of the
before-path, and otherwise the fallback write-then-delete leaves exactly
the after-content at the after-path. -/
theorem moved_change_apply_amended (root : Path) (fs : FS) (b a : SourceFile)
    (renameOk : Bool) (faults : List Path)
    (hne : b.path ≠ a.path) (hf : joinP root b.path ∉ faults) :
    ∃ fs', applyMoved root renameOk faults fs [⟨some b, some a⟩] = .ok fs' ∧
      fileContent fs' (joinP root b.path) = none ∧
      ((renameOk = true ∧ hasFile fs (joinP root b.path) = true ∧
          fileContent fs' (joinP root a.path) = fileContent fs (joinP root b.path)) ∨
        fileContent fs' (joinP root a.path) = some a.content) := by
  have hpne : joinP root b.path ≠ joinP root a.path := joinP_ne root hne
  have hpne' : joinP root a.path ≠ joinP root b.path := fun hh => hpne hh.symm
  simp only [applyMoved]
  rcases hr : renameOk with _ | _
  · -- rename unavailable: fallback path
    have h1 : osRename (mkdirAll fs (parentDir (joinP root a.path))) false
        (joinP root b.path) (joinP root a.path) = none := by simp [osRename]
    rw [h1]
    simp only [writeFile]
    set fsW := setFile (mkdirAll (mkdirAll fs (parentDir (joinP root a.path)))
      (parentDir (joinP root a.path))) (joinP root a.path) a.content with hfsW
    rcases hbf : hasFile fsW (joinP root b.path) with _ | _
    · have h2 : osRemoveFile fsW faults (joinP root b.path) = (fsW, some .notExist) := by
        simp [osRemoveFile, hf, hbf]
      rw [h2]
      refine ⟨fsW, rfl, ?_, Or.inr ?_⟩
      · exact (hasFile_false_iff _ _).mp hbf
      · rw [hfsW]; exact fileContent_setFile_self _ _ _
    · have h2 : osRemoveFile fsW faults (joinP root b.path) =
          (removeFileEntry fsW (joinP root b.path), none) := by
        simp [osRemoveFile, hf, hbf]
      rw [h2]
      refine ⟨_, rfl, ?_, Or.inr ?_⟩
      · exact fileContent_removeFileEntry_self _ _
      · rw [fileContent_removeFileEntry_other _ _ _ hpne', hfsW]
        exact fileContent_setFile_self _ _ _
  · -- rename permitted
    rcases hfc : fileContent fs (joinP root b.path) with _ | c
    · -- source absent: the rename itself fails, fallback as above
      have h1 : osRename (mkdirAll fs (parentDir (joinP root a.path))) true
          (joinP root b.path) (joinP root a.path) = none := by
        simp [osRename, fileContent_mkdirAll, hfc]
      rw [h1]
      simp only [writeFile]
      set fsW := setFile (mkdirAll (mkdirAll fs (parentDir (joinP root a.path)))
        (parentDir (joinP root a.path))) (joinP root a.path) a.content with hfsW
      rcases hbf : hasFile fsW (joinP root b.path) with _ | _
      · have h2 : osRemoveFile fsW faults (joinP root b.path) = (fsW, some .notExist) := by
          simp [osRemoveFile, hf, hbf]
        rw [h2]
        refine ⟨fsW, rfl, ?_, Or.inr ?_⟩
        · exact (hasFile_false_iff _ _).mp hbf
        · rw [hfsW]; exact fileContent_setFile_self _ _ _
      · have h2 : osRemoveFile fsW faults (joinP root b.path) =
            (removeFileEntry fsW (joinP root b.path), none) := by
          simp [osRemoveFile, hf, hbf]
        rw [h2]
        refine ⟨_, rfl, ?_, Or.inr ?_⟩
        · exact fileContent_removeFileEntry_self _ _
        · rw [fileContent_removeFileEntry_other _ _ _ hpne', hfsW]
          exact fileContent_setFile_self _ _ _
    · -- source present: the atomic rename succeeds
      have h1 : osRename (mkdirAll fs (parentDir (joinP root a.path))) true
          (joinP root b.path) (joinP root a.path) =
          some (setFile (removeFileEntry (mkdirAll fs (parentDir (joinP root a.path)))
            (joinP root b.path)) (joinP root a.path) c) := by
        simp [osRename, fileContent_mkdirAll, hfc]
      rw [h1]
      refine ⟨_, rfl, ?_, Or.inl ⟨rfl, hasFile_true_of_content _ _ _ hfc, ?_⟩⟩
      · rw [fileContent_setFile_other _ _ _ _ hpne]
        exact fileContent_removeFileEntry_self _ _
      · rw [fileContent_setFile_self]

/-! ### Claim C2: the empty-directory pruning pass -/

theorem pickMax_perm (x : Path) (l : List Path) :
    List.Perm ((pickMax x l).1 :: (pickMax x l).2) (x :: l) := by
  induction l generalizing x with
  | nil => simp [pickMax]
  | cons y ys ih =>
    simp only [pickMax]
    by_cases h : sepCount x < sepCount y
    · simp only [if_pos h]
      exact List.Perm.trans (List.Perm.swap _ _ _) ((ih y).cons x)
    · simp only [if_neg h]
      exact List.Perm.trans (List.Perm.swap _ _ _)
        (List.Perm.trans ((ih x).cons y) (List.Perm.swap _ _ _))

theorem pickMax_seed_le (x : Path) (l : List Path) :
    sepCount x ≤ sepCount (pickMax x l).1 := by
  induction l generalizing x with
  | nil => simp [pickMax]
  | cons y ys ih =>
    simp only [pickMax]
    by_cases h : sepCount x < sepCount y
    · simp only [if_pos h]
      exact le_trans (le_of_lt h) (ih y)
    · simp only [if_neg h]
      exact ih x

theorem pickMax_rest_le (x : Path) (l : List Path) :
    ∀ z ∈ (pickMax x l).2, sepCount z ≤ sepCount (pickMax x l).1 := by
  induction l generalizing x with
  | nil => simp [pickMax]
  | cons y ys ih =>
    simp only [pickMax]
    by_cases h : sepCount x < sepCount y
    · simp only [if_pos h]
      intro z hz
      rcases List.mem_cons.mp hz with rfl | hz'
      · exact le_trans (le_of_lt h) (pickMax_seed_le y ys)
      · exact ih y z hz'
    · simp only [if_neg h]
      intro z hz
      rcases List.mem_cons.mp hz with rfl | hz'
      · exact le_trans (Nat.le_of_not_lt h) (pickMax_seed_le x ys)
      · exact ih x z hz'

theorem sortF_perm : ∀ (fuel : Nat) (l : List Path), l.length ≤ fuel →
    List.Perm (sortF fuel l) l := by
  intro fuel
  induction fuel with
  | zero =>
    intro l h
    cases l with
    | nil => rfl
    | cons x xs => simp at h
  | succ fuel ih =>
    intro l h
    cases l with
    | nil => rfl
    | cons x xs =>
      simp only [sortF]
      have hlen : (pickMax x xs).2.length ≤ fuel := by
        rw [pickMax_length]
        simpa using Nat.le_of_succ_le_succ h
      exact List.Perm.trans ((ih _ hlen).cons _) (pickMax_perm x xs)

theorem sortF_sorted : ∀ (fuel : Nat) (l : List Path), l.length ≤ fuel →
    List.Sorted (fun u v => sepCount v ≤ sepCount u) (sortF fuel l) := by
  intro fuel
  induction fuel with
  | zero =>
    intro l h
    cases l with
    | nil => simp [sortF]
    | cons x xs => simp at h
  | succ fuel ih =>
    intro l h
    cases l with
    | nil => simp [sortF]
    | cons x xs =>
      simp only [sortF]
      have hlen : (pickMax x xs).2.length ≤ fuel := by
        rw [pickMax_length]
        simpa using Nat.le_of_succ_le_succ h
      rw [List.sorted_cons]
      refine ⟨fun z hz => ?_, ih _ hlen⟩
      exact pickMax_rest_le x xs z ((sortF_perm fuel _ hlen).mem_iff.mp hz)

theorem mem_dedupF : ∀ (fuel : Nat) (l : List Path), l.length ≤ fuel →
    ∀ a, (a ∈ dedupF fuel l ↔ a ∈ l) := by
  intro fuel
  induction fuel with
  | zero =>
    intro l h a
    cases l with
    | nil => simp [dedupF]
    | cons x xs => simp at h
  | succ fuel ih =>
    intro l h a
    cases l with
    | nil => simp [dedupF]
    | cons x xs =>
      have hlen : (xs.filter (fun y => y ≠ x)).length ≤ fuel :=
        le_trans (List.length_filter_le _ _) (Nat.le_of_succ_le_succ h)
      simp only [dedupF, List.mem_cons, ih _ hlen a, List.mem_filter,
        decide_eq_true_eq]
      by_cases hax : a = x
      · simp [hax]
      · simp [hax]

theorem nodup_dedupF : ∀ (fuel : Nat) (l : List Path), l.length ≤ fuel →
    (dedupF fuel l).Nodup := by
  intro fuel
  induction fuel with
  | zero =>
    intro l h
    cases l with
    | nil => simp [dedupF]
    | cons x xs => simp at h
  | succ fuel ih =>
    intro l h
    cases l with
    | nil => simp [dedupF]
    | cons x xs =>
      have hlen : (xs.filter (fun y => y ≠ x)).length ≤ fuel :=
        le_trans (List.length_filter_le _ _) (Nat.le_of_succ_le_succ h)
      rw [dedupF, List.nodup_cons]
      refine ⟨fun hmem => ?_, ih _ hlen⟩
      have := (mem_dedupF fuel _ hlen x).mp hmem
      rw [List.mem_filter, decide_eq_true_eq] at this
      exact this.2 rfl

/-- C2.  The pruning pass: candidates are exactly the parent directories of
the Deleted/Moved before-paths; after deduplication the processing order is
non-increasing in path depth and free of duplicates, with membership
unchanged; and on the spec's concrete scenarios the pass removes exactly
the candidates that are empty at the moment they are evaluated: the claim's
own layout, a cascade where a parent candidate becomes empty only once its
child was removed, and a non-empty candidate that is left untouched. -/
theorem prune_candidates_order_and_behavior :
    (∀ l : List Path, List.Sorted (fun u v => sepCount v ≤ sepCount u) (sortByDepthDesc l)) ∧
    (∀ (l : List Path) (a : Path), a ∈ sortByDepthDesc (dedupKeepFirst l) ↔ a ∈ l) ∧
    (∀ l : List Path, (sortByDepthDesc (dedupKeepFirst l)).Nodup) ∧
    (∀ (root : Path) (results : ResultsContainer),
        candidateDirs root results =
          (beforePaths results.deleted ++ beforePaths results.moved).map
            (fun p => parentDir (joinP root p))) ∧
    (cleanupEmptyDirectories [] ⟨[], [str "a", str "a/b", str "a/b/c"]⟩
        ⟨[], [⟨some (mkSF "a/b/c/file1.txt" "x"), none⟩,
              ⟨some (mkSF "a/b/c/file2.txt" "y"), none⟩], [], [], none⟩ [] =
      (⟨[], [str "a", str "a/b"]⟩, [str "a/b/c"], none)) ∧
    (cleanupEmptyDirectories [] ⟨[], [str "a", str "a/b", str "a/b/c"]⟩
        ⟨[], [⟨some (mkSF "a/b/c/f.txt" "x"), none⟩],
         [⟨some (mkSF "a/b/g.txt" "y"), some (mkSF "x/g.txt" "y")⟩], [], none⟩ [] =
      (⟨[], [str "a"]⟩, [str "a/b/c", str "a/b"], none)) ∧
    (cleanupEmptyDirectories [] ⟨[(str "a/b/g.txt", "k")], [str "a", str "a/b"]⟩
        ⟨[], [⟨some (mkSF "a/b/f.txt" "x"), none⟩], [], [], none⟩ [] =
      (⟨[(str "a/b/g.txt", "k")], [str "a", str "a/b"]⟩, [], none)) := by
  refine ⟨fun l => sortF_sorted _ _ le_rfl, fun l a => ?_, fun l => ?_,
    fun root results => by simp [candidateDirs, List.map_append], by decide, by decide, by decide⟩
  · exact (sortF_perm _ _ le_rfl).mem_iff.trans (mem_dedupF _ _ le_rfl a)
  · exact (sortF_perm _ _ le_rfl).nodup_iff.mpr (nodup_dedupF _ _ le_rfl)

/-- C1 (witness).  The amended theorem at a concrete move with rename
unavailable: the fallback reaches the after-content end state. -/
theorem moved_change_apply_amended_witness :
    ∃ fs', applyMoved [] false [] ⟨[(str "a/old.txt", "old")], []⟩
        [⟨some (mkSF "a/old.txt" "old"), some (mkSF "b/new.txt" "NEW")⟩] = .ok fs' ∧
      fileContent fs' (joinP [] (mkSF "a/old.txt" "old").path) = none ∧
      ((false = true ∧ hasFile ⟨[(str "a/old.txt", "old")], []⟩
            (joinP [] (mkSF "a/old.txt" "old").path) = true ∧
          fileContent fs' (joinP [] (mkSF "b/new.txt" "NEW").path) =
            fileContent ⟨[(str "a/old.txt", "old")], []⟩
              (joinP [] (mkSF "a/old.txt" "old").path)) ∨
        fileContent fs' (joinP [] (mkSF "b/new.txt" "NEW").path) =
          some (mkSF "b/new.txt" "NEW").content) :=
  moved_change_apply_amended [] ⟨[(str "a/old.txt", "old")], []⟩
    (mkSF "a/old.txt" "old") (mkSF "b/new.txt" "NEW") false [] (by decide) (by decide)

/-! ### Claim C3: classification of path-changing pairs -/

/-- C3.  A pair with both snapshots present and differing paths is
categorized as Moved — the contents play no role — and `ProcessFiles`
appends such a result to the Moved bucket. -/
theorem moved_bucket_of_path_change (b a : SourceFile) (h : b.path ≠ a.path) :
    categorize ⟨some b, some a⟩ = some Bucket.moved ∧
    (processFiles [.ok (some ⟨some b, some a⟩)]).moved = [⟨some b, some a⟩] := by
  constructor
  · simp [categorize, h]
  · simp [processFiles, stepPF, addResult, categorize, h, emptyRC]

/-- C3 (witness).  The theorem at a pair with equal contents and different
paths: equality of content does not move it out of the Moved bucket. -/
theorem moved_bucket_of_path_change_witness :
    categorize ⟨some (mkSF "a.txt" "same"), some (mkSF "b.txt" "same")⟩ = some Bucket.moved ∧
    (processFiles [.ok (some ⟨some (mkSF "a.txt" "same"), some (mkSF "b.txt" "same")⟩)]).moved =
      [⟨some (mkSF "a.txt" "same"), some (mkSF "b.txt" "same")⟩] :=
  moved_bucket_of_path_change (mkSF "a.txt" "same") (mkSF "b.txt" "same") (by decide)

/-! ### Claim C5: deleting an absent file is tolerated -/

/-- C5.  The Deleted loop: a before-path absent from disk (and not faulted)
leaves the filesystem untouched and succeeds; an injected non-not-found
failure aborts the loop, and through `applyChanges` the whole apply, with
that failure. -/
theorem deleted_not_found_tolerated :
    (∀ (root : Path) (fs : FS) (faults : List Path) (b : SourceFile),
        joinP root b.path ∉ faults → fileContent fs (joinP root b.path) = none →
        applyDeleted root faults fs [⟨some b, none⟩] = .ok fs) ∧
    (∀ (root : Path) (fs : FS) (faults : List Path) (b : SourceFile) (aft : Option SourceFile),
        joinP root b.path ∈ faults →
        applyDeleted root faults fs [⟨some b, aft⟩] = .error "failed to delete file") ∧
    (∀ (root : Path) (fs : FS) (faults : List Path) (b : SourceFile) (renameOk : Bool),
        joinP root b.path ∈ faults →
        applyChanges root renameOk faults [] fs ⟨[], [⟨some b, none⟩], [], [], none⟩ =
          .error "failed to delete file") := by
  refine ⟨?_, ?_, ?_⟩
  · intro root fs faults b hf hc
    have hb : hasFile fs (joinP root b.path) = false := (hasFile_false_iff _ _).mpr hc
    simp [applyDeleted, osRemoveFile, hf, hb]
  · intro root fs faults b aft hf
    simp [applyDeleted, osRemoveFile, hf]
  · intro root fs faults b renameOk hf
    have h1 : applyDeleted root faults (applyGenerated root fs []) [⟨some b, none⟩] =
        .error "failed to delete file" := by
      simp [applyGenerated, applyDeleted, osRemoveFile, hf]
    simp only [applyChanges, h1]

/-- C5 (witness).  The theorem at concrete inputs: deleting a missing file
succeeds and changes nothing; an injected permission failure aborts. -/
theorem deleted_not_found_tolerated_witness :
    applyDeleted [] [] ⟨[], []⟩ [⟨some (mkSF "gone.txt" "x"), none⟩] = .ok ⟨[], []⟩ ∧
    applyDeleted [] [str "locked.txt"] ⟨[(str "locked.txt", "k")], []⟩
        [⟨some (mkSF "locked.txt" "k"), none⟩] = .error "failed to delete file" ∧
    applyChanges [] true [str "locked.txt"] [] ⟨[(str "locked.txt", "k")], []⟩
        ⟨[], [⟨some (mkSF "locked.txt" "k"), none⟩], [], [], none⟩ =
      .error "failed to delete file" :=
  ⟨deleted_not_found_tolerated.1 [] ⟨[], []⟩ [] (mkSF "gone.txt" "x") (by decide) (by decide),
   deleted_not_found_tolerated.2.1 [] ⟨[(str "locked.txt", "k")], []⟩ [str "locked.txt"]
     (mkSF "locked.txt" "k") none (by decide),
   deleted_not_found_tolerated.2.2 [] ⟨[(str "locked.txt", "k")], []⟩ [str "locked.txt"]
     (mkSF "locked.txt" "k") true (by decide)⟩

/-! ### Claim C6: pruning failures are never propagated -/

/-- Success test for the applicator result. -/
def exceptOk : Except Err FS → Bool
  | .ok _ => true
  | .error _ => false

/-- C6.  The pruning pass always reports success (its returned error value
is nil by construction), and the success or failure of the whole apply is
unchanged under any injection of directory-removal faults: the apply never
aborts because of pruning. -/
theorem prune_failures_never_propagate :
    (∀ (root : Path) (fs : FS) (results : ResultsContainer) (faults : List Path),
        (cleanupEmptyDirectories root fs results faults).2.2 = none) ∧
    (∀ (root : Path) (renameOk : Bool) (rmFaults rdA rdB : List Path) (fs : FS)
        (results : ResultsContainer),
        exceptOk (applyChanges root renameOk rmFaults rdA fs results) =
          exceptOk (applyChanges root renameOk rmFaults rdB fs results)) := by
  constructor
  · intro root fs results faults
    rfl
  · intro root renameOk rmFaults rdA rdB fs results
    simp only [applyChanges]
    cases applyDeleted root rmFaults (applyGenerated root fs results.generated) results.deleted with
    | error e => rfl
    | ok fs2 =>
      dsimp only
      cases applyMoved root renameOk rmFaults fs2 results.moved with
      | error e => rfl
      | ok fs3 => simp [exceptOk]

/-! ### Claim C7: the first processing failure is retained and surfaced -/

/-- The first error in a list of per-file outcomes. -/
def firstError : List (Except Err (Option Result)) → Option Err
  | [] => none
  | .error e :: _ => some e
  | .ok _ :: rest => firstError rest

/-- The produced results of the successful per-file outcomes, in order. -/
def successes : List (Except Err (Option Result)) → List Result
  | [] => []
  | .error _ :: rest => successes rest
  | .ok none :: rest => successes rest
  | .ok (some r) :: rest => r :: successes rest

/-- A results container with the retained exception forgotten. -/
def eraseExn (rc : ResultsContainer) : ResultsContainer :=
  { rc with firstException := none }

theorem addResult_firstException (rc : ResultsContainer) (r : Result) :
    (addResult rc r).firstException = rc.firstException := by
  unfold addResult
  rcases categorize r with _ | b
  · rfl
  · cases b <;> rfl

theorem addResult_eraseExn (rc : ResultsContainer) (r : Result) :
    eraseExn (addResult rc r) = addResult (eraseExn rc) r := by
  unfold addResult
  rcases categorize r with _ | b
  · rfl
  · cases b <;> rfl

theorem foldl_stepPF_some (outs : List (Except Err (Option Result))) :
    ∀ (rc : ResultsContainer) (e : Err), rc.firstException = some e →
    (outs.foldl stepPF rc).firstException = some e := by
  induction outs with
  | nil => intro rc e h; exact h
  | cons o rest ih =>
    intro rc e h
    rw [List.foldl_cons]
    apply ih
    cases o with
    | error e' => simp [stepPF, h]
    | ok r? =>
      cases r? with
      | none => exact h
      | some r => rw [stepPF, addResult_firstException]; exact h

theorem foldl_stepPF_firstException (outs : List (Except Err (Option Result))) :
    ∀ rc : ResultsContainer, rc.firstException = none →
    (outs.foldl stepPF rc).firstException = firstError outs := by
  induction outs with
  | nil => intro rc h; exact h
  | cons o rest ih =>
    intro rc h
    rw [List.foldl_cons]
    cases o with
    | error e =>
      rw [firstError]
      exact foldl_stepPF_some rest _ e (by simp [stepPF, h])
    | ok r? =>
      cases r? with
      | none => rw [firstError]; exact ih rc h
      | some r =>
        rw [firstError]
        exact ih _ (by rw [stepPF, addResult_firstException]; exact h)

theorem foldl_stepPF_buckets (outs : List (Except Err (Option Result))) :
    ∀ rc : ResultsContainer,
    eraseExn (outs.foldl stepPF rc) = (successes outs).foldl addResult (eraseExn rc) := by
  induction outs with
  | nil => intro rc; rfl
  | cons o rest ih =>
    intro rc
    rw [List.foldl_cons]
    cases o with
    | error e =>
      rw [successes, ih]
      have hstep : stepPF rc (.error e) =
          (if rc.firstException = none then { rc with firstException := some e } else rc) := rfl
      have : eraseExn (stepPF rc (.error e)) = eraseExn rc := by
        rw [hstep]
        by_cases hfe : rc.firstException = none
        · rw [if_pos hfe]; rfl
        · rw [if_neg hfe]
      rw [this]
    | ok r? =>
      cases r? with
      | none => rw [successes]; exact ih rc
      | some r =>
        rw [successes, List.foldl_cons, ih]
        rw [show stepPF rc (.ok (some r)) = addResult rc r from rfl, addResult_eraseExn]

/-- C7.  `ProcessFiles` retains exactly the first per-file failure while the
buckets collect the results of every successful file, before or after the
failure; and when a failure was retained, `Execute` reports the run as
failed with that first failure. -/
theorem first_failure_retained_and_surfaced :
    (∀ outs, (processFiles outs).firstException = firstError outs) ∧
    (∀ outs, eraseExn (processFiles outs) = (successes outs).foldl addResult emptyRC) ∧
    (∀ outs e, firstError outs = some e → runOutcome (processFiles outs) = .error e) := by
  have h1 : ∀ outs, (processFiles outs).firstException = firstError outs :=
    fun outs => foldl_stepPF_firstException outs emptyRC rfl
  refine ⟨h1, fun outs => foldl_stepPF_buckets outs emptyRC, fun outs e he => ?_⟩
  rw [runOutcome, h1, he]

/-- C7 (witness).  A failing first file, a second failure that is not
retained, and a later successful file: the success is still bucketed and
the run reports the first failure. -/
theorem first_failure_retained_and_surfaced_witness :
    runOutcome (processFiles [.error "boom", .error "later",
      .ok (some ⟨none, some (mkSF "g.txt" "new")⟩)]) = .error "boom" :=
  first_failure_retained_and_surfaced.2.2
    [.error "boom", .error "later", .ok (some ⟨none, some (mkSF "g.txt" "new")⟩)]
    "boom" (by decide)

/-! ### Claim C8: a walk error aborts discovery -/

/-- C8.  A visit error in the walk makes discovery return exactly the files
collected before the error together with that error — the later entries are
never examined — and the `Execute`-side caller receives only the error,
never a partial candidate list. -/
theorem walk_error_aborts_discovery (cfg : DiscoveryConfig) (pre post : List WalkEntry)
    (er : Err) (d : Bool) (sz : Nat) (p : Path)
    (h : pre.all (fun e => e.errVisit == none) = true) :
    findSourceFiles cfg (pre ++ ⟨some er, d, sz, p⟩ :: post) =
      ((findSourceFiles cfg pre).1, some er) ∧
    discoverOutcome cfg (pre ++ ⟨some er, d, sz, p⟩ :: post) = .error er := by
  have h1 : findSourceFiles cfg (pre ++ ⟨some er, d, sz, p⟩ :: post) =
      ((findSourceFiles cfg pre).1, some er) := by
    induction pre with
    | nil => rfl
    | cons e pre' ih =>
      rw [List.all_cons, Bool.and_eq_true] at h
      have he : e.errVisit = none := by simpa using h.1
      rw [List.cons_append]
      rw [findSourceFiles, findSourceFiles, he]
      rw [ih h.2]
  refine ⟨h1, ?_⟩
  rw [discoverOutcome, h1]

/-- C8 (witness).  A concrete walk with one good file before the error and
one after: discovery returns the error; the caller gets no file list. -/
theorem walk_error_aborts_discovery_witness :
    findSourceFiles ⟨10, [], []⟩ ([⟨none, false, 0, str "a.java"⟩] ++
        ⟨some "walkfail", false, 0, str "b.java"⟩ :: [⟨none, false, 0, str "c.java"⟩]) =
      ((findSourceFiles ⟨10, [], []⟩ [⟨none, false, 0, str "a.java"⟩]).1, some "walkfail") ∧
    discoverOutcome ⟨10, [], []⟩ ([⟨none, false, 0, str "a.java"⟩] ++
        ⟨some "walkfail", false, 0, str "b.java"⟩ :: [⟨none, false, 0, str "c.java"⟩]) =
      .error "walkfail" :=
  walk_error_aborts_discovery ⟨10, [], []⟩ [⟨none, false, 0, str "a.java"⟩]
    [⟨none, false, 0, str "c.java"⟩] "walkfail" false 0 (str "b.java") (by decide)

/-! ### Claim C9: the single double-asterisk split -/

theorem splitAux_no_ss : ∀ (l : List Char), containsSS l = false →
    ∀ acc, splitAux acc l = [acc.reverse ++ l] := by
  intro l
  induction l with
  | nil => intro _ acc; simp [splitAux]
  | cons c rest ih =>
    intro h acc
    rcases rest with _ | ⟨c2, rest'⟩
    · by_cases hc : c = '*'
      · subst hc; simp [splitAux]
      · rcases c with ⟨cv, hv⟩
        simp_all [splitAux]
    · by_cases hc : c = '*'
      · subst hc
        by_cases hc2 : c2 = '*'
        · subst hc2; simp [containsSS] at h
        · have h' : containsSS (c2 :: rest') = false := by
            rcases c2 with ⟨cv2, hv2⟩
            simp_all [containsSS]
          have := ih h' ('*' :: acc)
          rcases c2 with ⟨cv2, hv2⟩
          simp_all [splitAux]
      · have h' : containsSS (c2 :: rest') = false := by
          rcases c with ⟨cv, hv⟩
          simp_all [containsSS]
        have := ih h' (c :: acc)
        rcases c with ⟨cv, hv⟩
        simp_all [splitAux]

theorem containsSS_of_split (pattern pre suf : List Char)
    (h : splitOnSS pattern = [pre, suf]) : containsSS pattern = true := by
  by_contra hc
  rw [Bool.not_eq_true] at hc
  rw [splitOnSS, splitAux_no_ss pattern hc []] at h
  simp at h

/-- C9 (counterexample).  For the pattern `?**`, which contains exactly one
double-asterisk and splits into prefix `?` and empty suffix, the path `x`
matches the pattern (through the glob branch), yet it neither starts with
the prefix nor satisfies the claimed equivalence — so matching is not
equivalent to the prefix/suffix test alone. -/
theorem split_pattern_iff_false :
    splitOnSS (str "?**") = [str "?", str ""] ∧
    matchesPatterns (str "x") [str "?**"] = true ∧
    ((str "?").isPrefixOf (str "x") && (str "").isSuffixOf (str "x")) = false := by decide

/-- C9 (amended).  For every pattern that splits on `**` into exactly a
prefix and a suffix, a path matches the pattern iff the plain glob matches
it or it starts with the prefix and ends with the suffix: the prefix/suffix
equivalence of the claim holds only up to the extra glob disjunct, which
the loop tries first. -/
theorem split_pattern_match_amended (pattern path pre suf : Path)
    (h : splitOnSS pattern = [pre, suf]) :
    matchesPatterns path [pattern] =
      (goMatch pattern path || (pre.isPrefixOf path && suf.isSuffixOf path)) := by
  have hc := containsSS_of_split pattern pre suf h
  simp [matchesPatterns, patternMatches, h, hc]

/-- C9 (witness).  The amended equivalence at the pattern `src/**.java`
and the path `src/main/App.java`. -/
theorem split_pattern_match_amended_witness :
    matchesPatterns (str "src/main/App.java") [str "src/**.java"] =
      (goMatch (str "src/**.java") (str "src/main/App.java") ||
        ((str "src/").isPrefixOf (str "src/main/App.java") &&
          (str ".java").isSuffixOf (str "src/main/App.java"))) :=
  split_pattern_match_amended (str "src/**.java") (str "src/main/App.java")
    (str "src/") (str ".java") (by decide)

/-! ### Claim C10: the extension check is case-insensitive -/

/-- C10.  `isSourceFile` depends only on the lowercased extension, so paths
whose extensions agree up to case are treated alike; `Main.JAVA` is
accepted although its extension is not literally `.java`; and the pattern
matcher used elsewhere in discovery stays case-sensitive. -/
theorem source_ext_case_insensitive :
    (∀ p q : Path, (filepathExt p).map Char.toLower = (filepathExt q).map Char.toLower →
        isSourceFile p = isSourceFile q) ∧
    isSourceFile (str "Main.JAVA") = true ∧
    filepathExt (str "Main.JAVA") ≠ str ".java" ∧
    matchesPatterns (str "Main.JAVA") [str "*.java"] = false ∧
    matchesPatterns (str "main.java") [str "*.java"] = true := by
  refine ⟨fun p q h => ?_, by decide, by decide, by decide, by decide⟩
  simp only [isSourceFile, h]

/-- C10 (witness).  The case-insensitivity part applied to `Main.JAVA` and
`main.java`, whose extensions agree once lowercased. -/
theorem source_ext_case_insensitive_witness :
    isSourceFile (str "Main.JAVA") = isSourceFile (str "main.java") :=
  source_ext_case_insensitive.1 (str "Main.JAVA") (str "main.java") (by decide)

/-! ### Claim C4: the double double-asterisk pattern -/

/-- C4 (counterexample).  The matcher answers false — not true — for the
pattern `**/target/**` against `foo/target/classes/x.class`: the pattern
contains two double-asterisks, so it splits into three parts and the
prefix/suffix branch is skipped, while the plain glob cannot cross the
separators. -/
theorem target_pattern_claim_false :
    matchesPatterns (str "foo/target/classes/x.class") [str "**/target/**"] = false := by
  decide

/-- C4 (amended).  The pattern `**/target/**` matches neither
`foo/target/classes/x.class` nor `foo/targetx/x.class`, because splitting
it on `**` yields three parts, not two. -/
theorem target_pattern_matches_neither :
    matchesPatterns (str "foo/target/classes/x.class") [str "**/target/**"] = false ∧
    matchesPatterns (str "foo/targetx/x.class") [str "**/target/**"] = false ∧
    splitOnSS (str "**/target/**") = [str "", str "/target/", str ""] := by decide

end RewriteGo
